import Mathlib

/-
Verification of the PWAR transport/buffering engine against its
natural-language specification.

The definitions below are a shallow embedding of the C sources:
  * src/protocol/pwar_ring_buffer.c   (play-out ring buffer)
  * src/protocol/latency_manager.c    (latency statistics and snapshot)
  * src/linux/libpwar.c               (receiver dispatch, config update)
  * src/protocol/pwar_packet.h        (wire packet layout)

Machine integers are modelled as Nat with explicit reduction modulo
2^32 (uint32_t) or 2^64 (uint64_t) at each arithmetic step where the C
code performs unsigned wrap-around arithmetic.  Audio samples (C float)
are never computed with arithmetically - they are only copied and
zeroed - so the sample type is an arbitrary type with a distinguished
zero; witnesses instantiate it with Int.
-/

namespace PWAR

/-- Modulus of uint32_t arithmetic. -/
def U32 : Nat := 2 ^ 32

/-- Modulus of uint64_t arithmetic. -/
def U64 : Nat := 2 ^ 64

/-- Addition of two uint32_t values (wrap-around). -/
def u32add (a b : Nat) : Nat := (a + b) % U32

/-- Subtraction of two uint32_t values (wrap-around, two's complement). -/
def u32sub (a b : Nat) : Nat := (a + (U32 - b % U32)) % U32

/-- Addition of two uint64_t values (wrap-around). -/
def u64add (a b : Nat) : Nat := (a + b) % U64

/- List helpers: `List.getD` after a `List.set`. -/

theorem getD_set_self {α : Type} (l : List α) (i : Nat) (a d : α)
    (h : i < l.length) : (l.set i a).getD i d = a := by
  induction l generalizing i with
  | nil => simp at h
  | cons x xs ih =>
    cases i with
    | zero => rfl
    | succ j =>
      simp only [List.set]
      have hj : j < xs.length := by simpa using h
      simpa [List.getD] using ih j hj

theorem getD_set_ne {α : Type} (l : List α) (i j : Nat) (a d : α)
    (h : i ≠ j) : (l.set i a).getD j d = l.getD j d := by
  induction l generalizing i j with
  | nil => simp [List.set]
  | cons x xs ih =>
    cases i with
    | zero =>
      cases j with
      | zero => exact absurd rfl h
      | succ j2 => rfl
    | succ i2 =>
      cases j with
      | zero => rfl
      | succ j2 =>
        simp only [List.set]
        have : i2 ≠ j2 := fun hc => h (by rw [hc])
        simpa [List.getD] using ih i2 j2 this

/--
State of the ring buffer singleton of src/protocol/pwar_ring_buffer.c.
`buffer = none` models `ring_buffer.buffer == NULL` (not initialised);
all counters are uint32_t values.  The pthread mutex is omitted: every
operation is modelled as one atomic step, which is exactly the
serialisation the mutex provides.
-/
structure RingState (α : Type) where
  buffer : Option (List α)
  depth : Nat
  channels : Nat
  write_index : Nat
  read_index : Nat
  available : Nat
  overruns : Nat
  underruns : Nat
deriving Repr, DecidableEq

/-- Inner channel loop of `prefill_buffer`: write 0.0f to
`buf[pos + ch]` for `ch < c`. -/
def zeroFrame {α : Type} [Zero α] (buf : List α) (pos : Nat) : Nat → List α
  | 0 => buf
  | c + 1 => (zeroFrame buf pos c).set (pos + c) 0

/-- Outer loop of `prefill_buffer`: `k` remaining iterations, writing a
zero frame at `write_index * channels` and advancing
`write_index = (write_index + 1) % depth` each time.  Returns the final
buffer and write index. -/
def prefillLoop {α : Type} [Zero α] (c d : Nat) : Nat → List α → Nat → List α × Nat
  | 0, buf, w => (buf, w)
  | k + 1, buf, w => prefillLoop c d k (zeroFrame buf (w * c) c) ((w + 1) % d)

/-- `prefill_buffer` (pwar_ring_buffer.c lines 21-39): reset both
indices to 0, zero all `depth` frames, set `available = depth`. -/
def prefill_buffer {α : Type} [Zero α] (s : RingState α) : RingState α :=
  match s.buffer with
  | none => s
  | some buf =>
    let p := prefillLoop s.channels s.depth s.depth buf 0
    { s with buffer := some p.1, write_index := p.2, read_index := 0,
             available := s.depth }

/-- `pwar_ring_buffer_init` (lines 42-74): set all fields, allocate a
zeroed `depth * channels` float array (calloc), then prefill.  The
model assumes the allocation and the mutex initialisation succeed. -/
def pwar_ring_buffer_init (α : Type) [Zero α] (depth channels : Nat) : RingState α :=
  prefill_buffer
    { buffer := some (List.replicate (depth * channels) (0 : α)),
      depth := depth, channels := channels,
      write_index := 0, read_index := 0, available := 0,
      overruns := 0, underruns := 0 }

/-- Inner channel loop of the push copy: `buf[wpos + ch] = src[spos + ch]`
for `ch < c`. -/
def copyFrameToBuf {α : Type} [Zero α] (buf : List α) (wpos : Nat)
    (src : List α) (spos : Nat) : Nat → List α
  | 0 => buf
  | c + 1 => (copyFrameToBuf buf wpos src spos c).set (wpos + c) (src.getD (spos + c) 0)

/-- Outer copy loop of `pwar_ring_buffer_push` (lines 126-135):
iteration index `i`, `k` remaining iterations; frame `i` of `src` is
copied to frame `write_index` of the buffer, and
`write_index = (write_index + 1) % depth`. -/
def pushFrames {α : Type} [Zero α] (src : List α) (c d : Nat) :
    Nat → Nat → List α → Nat → List α × Nat
  | _, 0, buf, w => (buf, w)
  | i, k + 1, buf, w =>
    pushFrames src c d (i + 1) k (copyFrameToBuf buf (w * c) src (i * c) c) ((w + 1) % d)

/-- `pwar_ring_buffer_push` (lines 96-142).  `src = none` models a NULL
`buffer` argument.  Returns the C return value and the new state. -/
def pwar_ring_buffer_push {α : Type} [Zero α] (s : RingState α)
    (src : Option (List α)) (n_samples channels : Nat) : Int × RingState α :=
  match s.buffer, src with
  | some buf, some srcL =>
    if channels ≠ s.channels then (-1, s)
    else
      let free_space := u32sub s.depth s.available
      let s1 :=
        if free_space < n_samples then
          { s with overruns := u32add s.overruns 1,
                   read_index := u32add s.read_index (n_samples - free_space) % s.depth,
                   available := u32sub s.available (n_samples - free_space) }
        else s
      let p := pushFrames srcL s.channels s.depth 0 n_samples buf s.write_index
      (1, { s1 with buffer := some p.1, write_index := p.2,
                    available := u32add s1.available n_samples })
  | _, _ => (-1, s)

/-- Inner channel loop of the pop copy: `dst[dpos + ch] = buf[rpos + ch]`
for `ch < c`. -/
def copyFrameFromBuf {α : Type} [Zero α] (dst : List α) (dpos : Nat)
    (buf : List α) (rpos : Nat) : Nat → List α
  | 0 => dst
  | c + 1 => (copyFrameFromBuf dst dpos buf rpos c).set (dpos + c) (buf.getD (rpos + c) 0)

/-- Outer copy loop of `pwar_ring_buffer_pop` (lines 176-185). -/
def popFrames {α : Type} [Zero α] (buf : List α) (c d : Nat) :
    Nat → Nat → List α → Nat → List α × Nat
  | _, 0, dst, r => (dst, r)
  | i, k + 1, dst, r =>
    popFrames buf c d (i + 1) k (copyFrameFromBuf dst (i * c) buf (r * c) c) ((r + 1) % d)

/-- `memset(samples, 0, count * sizeof(float))` on a destination list. -/
def memsetZero {α : Type} [Zero α] (dst : List α) (count : Nat) : List α :=
  List.replicate count (0 : α) ++ dst.drop count

/-- `pwar_ring_buffer_pop` (lines 144-192).  `dst = none` models a NULL
`samples` argument.  Returns the C return value, the destination array
after the call, and the new state. -/
def pwar_ring_buffer_pop {α : Type} [Zero α] (s : RingState α)
    (dst : Option (List α)) (n_samples channels : Nat) :
    Int × Option (List α) × RingState α :=
  match s.buffer, dst with
  | some buf, some dstL =>
    if channels ≠ s.channels then (-1, some dstL, s)
    else if s.available < n_samples then
      ((n_samples : Int), some (memsetZero dstL (n_samples * channels)),
        prefill_buffer { s with underruns := u32add s.underruns 1 })
    else
      let p := popFrames buf s.channels s.depth 0 n_samples dstL s.read_index
      ((n_samples : Int), some p.1,
        { s with read_index := p.2, available := u32sub s.available n_samples })
  | _, _ => (-1, dst, s)

/-- `pwar_ring_buffer_get_available` (lines 194-199). -/
def pwar_ring_buffer_get_available {α : Type} (s : RingState α) : Nat := s.available

/-- `pwar_ring_buffer_get_overruns` (lines 201-206). -/
def pwar_ring_buffer_get_overruns {α : Type} (s : RingState α) : Nat := s.overruns

/-- `pwar_ring_buffer_get_underruns` (lines 208-213). -/
def pwar_ring_buffer_get_underruns {α : Type} (s : RingState α) : Nat := s.underruns

/- Observation functions used to state the claims about the ring
buffer.  A frame is the `channels` consecutive samples starting at a
frame index, exactly the cells `buffer[idx * channels + ch]` the C
loops touch. -/

/-- Frame `f` of a flat interleaved sample array. -/
def readFrame {α : Type} [Zero α] (buf : List α) (c f : Nat) : List α :=
  (List.range c).map (fun ch => buf.getD (f * c + ch) 0)

/-- The `n` frames of a push source array, in order. -/
def srcFrames {α : Type} [Zero α] (src : List α) (c n : Nat) : List (List α) :=
  (List.range n).map (fun i => readFrame src c i)

/-- Readable contents of the ring buffer: the `available` frames read
in order starting from the read cursor. -/
def ringContents {α : Type} [Zero α] (s : RingState α) : List (List α) :=
  match s.buffer with
  | none => []
  | some buf =>
    (List.range s.available).map
      (fun k => readFrame buf s.channels ((s.read_index + k) % s.depth))

/-- One ring-buffer operation of an interleaved push/pop trace.  A push
carries its source array and frame count, a pop its frame count; both
use the channel count given at init, as claim C1 requires. -/
inductive RingOp (α : Type) where
  | push : List α → Nat → RingOp α
  | pop : Nat → RingOp α
deriving Repr, DecidableEq

/-- Frame count of an operation (a uint32_t argument in C). -/
def opFrames {α : Type} : RingOp α → Nat
  | .push _ n => n
  | .pop n => n

/-- Execute one operation (pops get a fresh scratch destination of the
right size, as the audio callback does). -/
def ringStep {α : Type} [Zero α] (s : RingState α) : RingOp α → RingState α
  | .push src n => (pwar_ring_buffer_push s (some src) n s.channels).2
  | .pop n =>
    (pwar_ring_buffer_pop s (some (List.replicate (n * s.channels) (0 : α))) n s.channels).2.2

/-- The sequence of states after each operation of a trace. -/
def ringStates {α : Type} [Zero α] (s : RingState α) : List (RingOp α) → List (RingState α)
  | [] => []
  | op :: ops => ringStep s op :: ringStates (ringStep s op) ops

/- Latency manager, src/protocol/latency_manager.c. -/

/-- `latency_stat_t` (latency_manager.c lines 11-17): five uint64_t
fields. -/
structure latency_stat_t where
  min : Nat
  max : Nat
  avg : Nat
  total : Nat
  count : Nat
deriving Repr, DecidableEq

/-- The all-zero statistic, `(latency_stat_t){0}`. -/
def latency_stat_zero : latency_stat_t :=
  { min := 0, max := 0, avg := 0, total := 0, count := 0 }

/-- `process_latency_stat` (lines 43-53): fold one uint64_t value into
a statistic. -/
def process_latency_stat (stat : latency_stat_t) (value : Nat) : latency_stat_t :=
  let m := if stat.count = 0 ∨ value < stat.min then value else stat.min
  let M := if stat.count = 0 ∨ stat.max < value then value else stat.max
  let total := u64add stat.total value
  let count := u64add stat.count 1
  { min := m, max := M, avg := total / count, total := total, count := count }

/-- The part of the `internal` state of latency_manager.c that the
snapshot reads: the current-window statistics and the sample rate. -/
structure LatencyInternalState where
  rtt_stat_current : latency_stat_t
  audio_proc_stat_current : latency_stat_t
  windows_rcv_delta_stat_current : latency_stat_t
  linux_rcv_delta_stat_current : latency_stat_t
  ring_buffer_fill_level_stat_current : latency_stat_t
  sample_rate : Nat
deriving Repr, DecidableEq

/-- The `internal = {0}` static initialiser. -/
def latency_internal_zero : LatencyInternalState :=
  { rtt_stat_current := latency_stat_zero,
    audio_proc_stat_current := latency_stat_zero,
    windows_rcv_delta_stat_current := latency_stat_zero,
    linux_rcv_delta_stat_current := latency_stat_zero,
    ring_buffer_fill_level_stat_current := latency_stat_zero,
    sample_rate := 0 }

/-- `pwar_latency_metrics_t` (src/protocol/pwar_latency_types.h).  The
millisecond fields are C doubles; they are modelled as exact rationals
(IEEE rounding is not modelled - no claim concerns these values), the
xrun field is a uint32_t. -/
structure pwar_latency_metrics_t where
  rtt_min_ms : ℚ
  rtt_max_ms : ℚ
  rtt_avg_ms : ℚ
  audio_proc_min_ms : ℚ
  audio_proc_max_ms : ℚ
  audio_proc_avg_ms : ℚ
  windows_jitter_min_ms : ℚ
  windows_jitter_max_ms : ℚ
  windows_jitter_avg_ms : ℚ
  linux_jitter_min_ms : ℚ
  linux_jitter_max_ms : ℚ
  linux_jitter_avg_ms : ℚ
  ring_buffer_min_ms : ℚ
  ring_buffer_max_ms : ℚ
  ring_buffer_avg_ms : ℚ
  xruns : Nat

/-- `latency_manger_get_current_metrics` (latency_manager.c lines
125-142, name as spelled in the source): copy the current-window
statistics, converted to milliseconds, and write `xruns = 0`
("XRUNs tracking not implemented yet"). -/
def latency_manger_get_current_metrics (st : LatencyInternalState) : pwar_latency_metrics_t :=
  { rtt_min_ms := (st.rtt_stat_current.min : ℚ) / 1000000,
    rtt_max_ms := (st.rtt_stat_current.max : ℚ) / 1000000,
    rtt_avg_ms := (st.rtt_stat_current.avg : ℚ) / 1000000,
    audio_proc_min_ms := (st.audio_proc_stat_current.min : ℚ) / 1000000,
    audio_proc_max_ms := (st.audio_proc_stat_current.max : ℚ) / 1000000,
    audio_proc_avg_ms := (st.audio_proc_stat_current.avg : ℚ) / 1000000,
    windows_jitter_min_ms := (st.windows_rcv_delta_stat_current.min : ℚ) / 1000000,
    windows_jitter_max_ms := (st.windows_rcv_delta_stat_current.max : ℚ) / 1000000,
    windows_jitter_avg_ms := (st.windows_rcv_delta_stat_current.avg : ℚ) / 1000000,
    linux_jitter_min_ms := (st.linux_rcv_delta_stat_current.min : ℚ) / 1000000,
    linux_jitter_max_ms := (st.linux_rcv_delta_stat_current.max : ℚ) / 1000000,
    linux_jitter_avg_ms := (st.linux_rcv_delta_stat_current.avg : ℚ) / 1000000,
    ring_buffer_min_ms :=
      (st.ring_buffer_fill_level_stat_current.min : ℚ) / st.sample_rate * 1000,
    ring_buffer_max_ms :=
      (st.ring_buffer_fill_level_stat_current.max : ℚ) / st.sample_rate * 1000,
    ring_buffer_avg_ms :=
      (st.ring_buffer_fill_level_stat_current.avg : ℚ) / st.sample_rate * 1000,
    xruns := 0 }

/-- Latency manager state together with the xrun counter the spec
describes.  The `internal` struct of latency_manager.c has no xrun
field; the counter exists only in the spec. -/
structure LatencyManagerState where
  internal : LatencyInternalState
  xrun_count : Nat
deriving Repr, DecidableEq

/-- Modelled from the spec: `latency_manager_report_xrun` ("increment
an xrun counter included in the snapshot").  Its implementation is
absent from src (libpwar.c only calls it); per the spec it increments
the accumulated xrun counter. -/
def latency_manager_report_xrun (st : LatencyManagerState) : LatencyManagerState :=
  { st with xrun_count := st.xrun_count + 1 }

/- Control API, src/linux/libpwar.c. -/

/-- The fields of `pwar_config_t` referenced by libpwar.c and
pwar_cli.c (the defining header libpwar.h is not under src; the field
set is taken from its uses). -/
structure pwar_config_t where
  buffer_size : Nat
  ring_buffer_depth : Nat
  stream_ip : String
  stream_port : Int
  backend_type : Nat
  passthrough_test : Nat
  oneshot_mode : Nat
deriving Repr, DecidableEq

/-- `pwar_requires_restart` (libpwar.c lines 313-321): 1 iff buffer
size, stream ip, stream port or backend type differ.  The ring depth is
not compared. -/
def pwar_requires_restart (old_config new_config : pwar_config_t) : Int :=
  if old_config.buffer_size ≠ new_config.buffer_size ∨
     old_config.stream_ip ≠ new_config.stream_ip ∨
     old_config.stream_port ≠ new_config.stream_port ∨
     old_config.backend_type ≠ new_config.backend_type
  then 1 else 0

/-- The globals of libpwar.c that `pwar_update_config` touches:
`g_pwar_initialized`, `g_current_config`, and the runtime-changeable
fields of `g_pwar_data->config`. -/
structure PwarGlobals where
  g_pwar_initialized : Nat
  g_current_config : pwar_config_t
  data_passthrough_test : Nat
  data_oneshot_mode : Nat
deriving Repr, DecidableEq

/-- `pwar_update_config` (libpwar.c lines 323-338). -/
def pwar_update_config (g : PwarGlobals) (config : pwar_config_t) : Int × PwarGlobals :=
  if g.g_pwar_initialized = 0 then (-1, g)
  else if pwar_requires_restart g.g_current_config config ≠ 0 then (-2, g)
  else
    (0, { g with data_passthrough_test := config.passthrough_test,
                 data_oneshot_mode := config.oneshot_mode,
                 g_current_config := config })

/- Receiver dispatch, src/linux/libpwar.c receiver_thread. -/

/-- `sizeof(pwar_packet_t)` for the struct of src/protocol/pwar_packet.h:
uint16_t n_samples (2 bytes, then 6 bytes padding to align the
uint64_t members), four uint64_t timestamps (32 bytes), and
`PWAR_CHANNELS * PWAR_PACKET_MAX_CHUNK_SIZE` floats (2 * 128 * 4 =
1024 bytes); total 1064, already a multiple of the 8-byte alignment. -/
def sizeof_pwar_packet : Nat := 8 + 4 * 8 + 2 * 128 * 4

/-- `PWAR_PACKET_MAX_CHUNK_SIZE` (pwar_packet.h line 13). -/
def PWAR_PACKET_MAX_CHUNK_SIZE : Nat := 128

/-- A received datagram, abstracted to what the receiver inspects: its
byte length and the `n_samples` field the packet would parse to when
the length matches. -/
structure Datagram where
  len : Nat
  n_samples : Nat
deriving Repr, DecidableEq

/-- Modelled from the spec: the packet-parse validation of the router
(`pwar_router_process_packet`, in pwar_router.c which is absent from
src): "Parsing validates byte length exactly and that
1 <= n_samples <= MAX_CHUNK". -/
def packet_parse_valid (n_samples : Nat) : Bool :=
  1 ≤ n_samples && n_samples ≤ PWAR_PACKET_MAX_CHUNK_SIZE

/-- Outcome of one receiver iteration for one datagram. -/
inductive RecvAction where
  | audio : Nat → RecvAction
  | latency : RecvAction
  | dropped : RecvAction
deriving Repr, DecidableEq

/-- One iteration of `receiver_thread` (libpwar.c lines 121-147) for a
received datagram: a datagram of exactly `sizeof(pwar_packet_t)` bytes
is handled as an audio packet when its `n_samples` passes the parse
validation; a datagram of exactly `latency_info_size` bytes
(`sizeof(pwar_latency_info_t)`, whose definition is not under src, so
the size is a parameter) is dispatched to the latency manager; any
other datagram is dropped. -/
def receiver_dispatch (latency_info_size : Nat) (d : Datagram) : RecvAction :=
  if d.len = sizeof_pwar_packet then
    if packet_parse_valid d.n_samples then .audio d.n_samples else .dropped
  else if d.len = latency_info_size then .latency
  else .dropped

/- Helper lemmas about the loop bodies. -/

theorem getD_eq_getElem {α : Type} (l : List α) (i : Nat) (d : α)
    (h : i < l.length) : l.getD i d = l[i] := by
  induction l generalizing i with
  | nil => simp at h
  | cons x xs ih =>
    cases i with
    | zero => rfl
    | succ j => simpa [List.getD] using ih j (by simpa using h)

theorem zeroFrame_length {α : Type} [Zero α] (buf : List α) (pos c : Nat) :
    (zeroFrame buf pos c).length = buf.length := by
  induction c with
  | zero => rfl
  | succ c ih => simp [zeroFrame, ih]

theorem zeroFrame_getD {α : Type} [Zero α] (buf : List α) (pos c j : Nat)
    (hj : j < buf.length) :
    (zeroFrame buf pos c).getD j 0 =
      if pos ≤ j ∧ j < pos + c then 0 else buf.getD j 0 := by
  induction c with
  | zero =>
    rw [if_neg (by omega)]
    rfl
  | succ c ih =>
    by_cases hje : j = pos + c
    · have hlt : pos + c < (zeroFrame buf pos c).length := by
        rw [zeroFrame_length]; omega
      have hcond : pos ≤ j ∧ j < pos + (c + 1) := by omega
      simp only [zeroFrame, hje]
      rw [getD_set_self _ _ _ _ hlt]
      simp [hcond]
    · simp only [zeroFrame]
      rw [getD_set_ne _ _ _ _ _ (fun hc => hje hc.symm), ih]
      by_cases hc1 : pos ≤ j ∧ j < pos + c
      · have hc2 : pos ≤ j ∧ j < pos + (c + 1) := by omega
        simp [hc1, hc2]
      · have hc2 : ¬ (pos ≤ j ∧ j < pos + (c + 1)) := by omega
        simp [hc1, hc2]

theorem prefillLoop_length {α : Type} [Zero α] (c d : Nat) (k : Nat)
    (buf : List α) (w : Nat) :
    (prefillLoop c d k buf w).1.length = buf.length := by
  induction k generalizing buf w with
  | zero => rfl
  | succ k ih => simp [prefillLoop, ih, zeroFrame_length]

theorem prefillLoop_snd {α : Type} [Zero α] (c d : Nat) (hd : 0 < d) (k : Nat) :
    ∀ (buf : List α) (w : Nat), w < d → (prefillLoop c d k buf w).2 = (w + k) % d := by
  induction k with
  | zero => intro buf w hw; simp [prefillLoop, Nat.mod_eq_of_lt hw]
  | succ k ih =>
    intro buf w hw
    rw [prefillLoop, ih _ _ (Nat.mod_lt _ hd), Nat.mod_add_mod]
    congr 1
    omega

theorem prefillLoop_getD {α : Type} [Zero α] (c d : Nat) (k : Nat) :
    ∀ (buf : List α) (w : Nat), (k ≠ 0 → w + k = d) → buf.length = d * c →
      ∀ j, j < d * c →
        (prefillLoop c d k buf w).1.getD j 0 =
          if j < (d - k) * c then buf.getD j 0 else 0 := by
  induction k with
  | zero =>
    intro buf w _ _ j hj
    rw [if_pos (by simpa using hj)]
    rfl
  | succ k ih =>
    intro buf w hw hlen j hj
    have hwk : w + (k + 1) = d := hw (by omega)
    rw [prefillLoop, ih _ _ (fun hk => by rw [Nat.mod_eq_of_lt (by omega)]; omega)
      (by rw [zeroFrame_length, hlen]) j hj]
    rw [zeroFrame_getD _ _ _ _ (by omega)]
    have hstep : (d - k) * c = w * c + c := by
      have : d - k = w + 1 := by omega
      rw [this]; ring
    have hstep2 : (d - (k + 1)) * c = w * c := by
      have : d - (k + 1) = w := by omega
      rw [this]
    by_cases h1 : j < w * c
    · rw [if_pos (by omega), if_neg (by omega), if_pos (by omega)]
    · by_cases h2 : j < w * c + c
      · rw [if_pos (by omega), if_pos (by omega), if_neg (by omega)]
      · rw [if_neg (by omega), if_neg (by omega)]

theorem prefill_buffer_spec {α : Type} [Zero α] (s : RingState α) (buf : List α)
    (hbuf : s.buffer = some buf) (hlen : buf.length = s.depth * s.channels) :
    prefill_buffer s =
      { s with buffer := some (List.replicate (s.depth * s.channels) (0 : α)),
               write_index := 0, read_index := 0, available := s.depth } := by
  have hzero : (prefillLoop s.channels s.depth s.depth buf 0).1 =
      List.replicate (s.depth * s.channels) (0 : α) := by
    apply List.ext_getElem
    · rw [prefillLoop_length, hlen, List.length_replicate]
    · intro j h1 h2
      have hj : j < s.depth * s.channels := by
        rw [prefillLoop_length, hlen] at h1; exact h1
      have := prefillLoop_getD s.channels s.depth s.depth buf 0
        (fun _ => by omega) hlen j hj
      rw [if_neg (by simp)] at this
      rw [← getD_eq_getElem _ _ (0 : α) h1, this]
      simp
  have hsnd : (prefillLoop s.channels s.depth s.depth buf 0).2 = 0 := by
    rcases Nat.eq_zero_or_pos s.depth with hd | hd
    · rw [hd]; rfl
    · rw [prefillLoop_snd s.channels s.depth hd s.depth buf 0 hd]
      simp
  simp only [prefill_buffer, hbuf, hzero, hsnd]

/-- C7: immediately after `pwar_ring_buffer_init depth channels` the
buffer is pre-filled with silence: `available()` returns `depth`, the
`depth * channels` sample slots are all zero, both cursors are 0, and
the overrun and underrun counters are 0. -/
theorem ring_init_prefilled (α : Type) [Zero α] (depth channels : Nat) :
    pwar_ring_buffer_get_available (pwar_ring_buffer_init α depth channels) = depth ∧
    (pwar_ring_buffer_init α depth channels).buffer =
      some (List.replicate (depth * channels) (0 : α)) ∧
    (pwar_ring_buffer_init α depth channels).write_index = 0 ∧
    (pwar_ring_buffer_init α depth channels).read_index = 0 ∧
    pwar_ring_buffer_get_overruns (pwar_ring_buffer_init α depth channels) = 0 ∧
    pwar_ring_buffer_get_underruns (pwar_ring_buffer_init α depth channels) = 0 := by
  have h := prefill_buffer_spec
    { buffer := some (List.replicate (depth * channels) (0 : α)),
      depth := depth, channels := channels,
      write_index := 0, read_index := 0, available := 0,
      overruns := 0, underruns := 0 }
    (List.replicate (depth * channels) (0 : α)) rfl (by simp)
  unfold pwar_ring_buffer_init
  rw [h]
  simp [pwar_ring_buffer_get_available, pwar_ring_buffer_get_overruns,
        pwar_ring_buffer_get_underruns]

/-- C3: a pop of `n` frames with `n > available` fills the destination
with `n` frames of silence, increments the underrun counter (as the
uint32_t it is), and re-prefills the buffer: `available = depth`, both
cursors 0, every slot zero.  In particular the state immediately after
the underrun pop - hence the state the next push sees, when it is the
next operation - has `available = depth`. -/
theorem ring_pop_underrun_spec {α : Type} [Zero α] (s : RingState α)
    (buf dstL : List α) (n c : Nat)
    (hbuf : s.buffer = some buf) (hlen : buf.length = s.depth * s.channels)
    (hch : c = s.channels) (hdst : dstL.length = n * c)
    (hun : s.available < n) :
    (pwar_ring_buffer_pop s (some dstL) n c).1 = (n : Int) ∧
    (pwar_ring_buffer_pop s (some dstL) n c).2.1 =
      some (List.replicate (n * c) (0 : α)) ∧
    pwar_ring_buffer_get_underruns (pwar_ring_buffer_pop s (some dstL) n c).2.2 =
      (s.underruns + 1) % U32 ∧
    pwar_ring_buffer_get_available (pwar_ring_buffer_pop s (some dstL) n c).2.2 = s.depth ∧
    (pwar_ring_buffer_pop s (some dstL) n c).2.2.write_index = 0 ∧
    (pwar_ring_buffer_pop s (some dstL) n c).2.2.read_index = 0 ∧
    (pwar_ring_buffer_pop s (some dstL) n c).2.2.buffer =
      some (List.replicate (s.depth * s.channels) (0 : α)) := by
  have hpre := prefill_buffer_spec { s with underruns := u32add s.underruns 1 }
    buf hbuf hlen
  have hmem : memsetZero dstL (n * c) = List.replicate (n * c) (0 : α) := by
    unfold memsetZero
    rw [← hdst, List.drop_length, List.append_nil]
  rw [hbuf] at hpre
  simp only [pwar_ring_buffer_pop, hbuf, if_neg (by simp [hch] : ¬ c ≠ s.channels),
    if_pos hun, hmem]
  rw [hpre]
  simp [pwar_ring_buffer_get_underruns, pwar_ring_buffer_get_available, u32add]

/-- Concrete state used by the C3 witness. -/
def c3state : RingState Int :=
  { buffer := some [5, 6, 7, 8], depth := 2, channels := 2,
    write_index := 0, read_index := 0, available := 1,
    overruns := 0, underruns := 0 }

/-- Witness for C3 at a concrete underrunning pop. -/
theorem ring_pop_underrun_spec_witness :
    (c3state.buffer = some [5, 6, 7, 8] ∧
     ([5, 6, 7, 8] : List Int).length = c3state.depth * c3state.channels ∧
     2 = c3state.channels ∧
     ([9, 9, 9, 9, 9, 9] : List Int).length = 3 * 2 ∧
     c3state.available < 3) ∧
    ((pwar_ring_buffer_pop c3state (some [9, 9, 9, 9, 9, 9]) 3 2).1 = (3 : Int) ∧
     (pwar_ring_buffer_pop c3state (some [9, 9, 9, 9, 9, 9]) 3 2).2.1 =
       some (List.replicate (3 * 2) (0 : Int)) ∧
     pwar_ring_buffer_get_underruns
       (pwar_ring_buffer_pop c3state (some [9, 9, 9, 9, 9, 9]) 3 2).2.2 =
       (c3state.underruns + 1) % U32 ∧
     pwar_ring_buffer_get_available
       (pwar_ring_buffer_pop c3state (some [9, 9, 9, 9, 9, 9]) 3 2).2.2 = c3state.depth ∧
     (pwar_ring_buffer_pop c3state (some [9, 9, 9, 9, 9, 9]) 3 2).2.2.write_index = 0 ∧
     (pwar_ring_buffer_pop c3state (some [9, 9, 9, 9, 9, 9]) 3 2).2.2.read_index = 0 ∧
     (pwar_ring_buffer_pop c3state (some [9, 9, 9, 9, 9, 9]) 3 2).2.2.buffer =
       some (List.replicate (c3state.depth * c3state.channels) (0 : Int))) :=
  ⟨⟨rfl, rfl, rfl, rfl, by decide⟩,
   ring_pop_underrun_spec c3state [5, 6, 7, 8] [9, 9, 9, 9, 9, 9] 3 2
     rfl rfl rfl rfl (by decide)⟩

/-- C9: a pop with a non-NULL destination on an initialised buffer with
the matching channel count always returns the requested `n_samples`,
on the normal path and on the underrun path alike; on the underrun
path the destination holds only zeros. -/
theorem ring_pop_returns_requested {α : Type} [Zero α] (s : RingState α)
    (buf dstL : List α) (n c : Nat)
    (hbuf : s.buffer = some buf) (hch : c = s.channels)
    (hdst : dstL.length = n * c) :
    (pwar_ring_buffer_pop s (some dstL) n c).1 = (n : Int) ∧
    (s.available < n →
      (pwar_ring_buffer_pop s (some dstL) n c).2.1 =
        some (List.replicate (n * c) (0 : α))) := by
  have hmem : memsetZero dstL (n * c) = List.replicate (n * c) (0 : α) := by
    unfold memsetZero
    rw [← hdst, List.drop_length, List.append_nil]
  simp only [pwar_ring_buffer_pop, hbuf, if_neg (by simp [hch] : ¬ c ≠ s.channels)]
  by_cases hav : s.available < n
  · simp [hav, hmem]
  · simp [hav]

/-- Concrete state used by the C9 witness. -/
def c9state : RingState Int :=
  { buffer := some [3, 4], depth := 2, channels := 1,
    write_index := 0, read_index := 0, available := 2,
    overruns := 0, underruns := 0 }

/-- Witness for C9 at a concrete pop. -/
theorem ring_pop_returns_requested_witness :
    (c9state.buffer = some [3, 4] ∧ 1 = c9state.channels ∧
     ([7] : List Int).length = 1 * 1) ∧
    ((pwar_ring_buffer_pop c9state (some [7]) 1 1).1 = (1 : Int) ∧
     (c9state.available < 1 →
       (pwar_ring_buffer_pop c9state (some [7]) 1 1).2.1 =
         some (List.replicate (1 * 1) (0 : Int)))) :=
  ⟨⟨rfl, rfl, rfl⟩, ring_pop_returns_requested c9state [3, 4] [7] 1 1 rfl rfl rfl⟩

/-- C10: a push or pop called with a NULL sample pointer, on an
uninitialised buffer, or with a channel count different from the one
given at init returns -1 and leaves the whole ring buffer state
(contents, cursors, `available`, overrun and underrun counters)
unchanged, and leaves the destination untouched. -/
theorem ring_invalid_args_unchanged {α : Type} [Zero α] (s : RingState α)
    (opt : Option (List α)) (n c : Nat)
    (h : opt = none ∨ s.buffer = none ∨ c ≠ s.channels) :
    pwar_ring_buffer_push s opt n c = (-1, s) ∧
    pwar_ring_buffer_pop s opt n c = (-1, opt, s) := by
  rcases h with h | h | h
  · subst h
    cases hb : s.buffer <;>
      simp [pwar_ring_buffer_push, pwar_ring_buffer_pop, hb]
  · cases opt <;>
      simp [pwar_ring_buffer_push, pwar_ring_buffer_pop, h]
  · cases hb : s.buffer <;> cases opt <;>
      simp [pwar_ring_buffer_push, pwar_ring_buffer_pop, hb, h]

/-- Concrete state used by the C10 witness. -/
def c10state : RingState Int :=
  { buffer := some [0, 0], depth := 2, channels := 1,
    write_index := 0, read_index := 0, available := 2,
    overruns := 0, underruns := 0 }

/-- Witness for C10 at a channel-count mismatch on an initialised buffer. -/
theorem ring_invalid_args_unchanged_witness :
    (some ([1, 2] : List Int) = none ∨ c10state.buffer = none ∨ 3 ≠ c10state.channels) ∧
    (pwar_ring_buffer_push c10state (some [1, 2]) 2 3 = (-1, c10state) ∧
     pwar_ring_buffer_pop c10state (some [1, 2]) 2 3 = (-1, some [1, 2], c10state)) :=
  ⟨Or.inr (Or.inr (by decide)),
   ring_invalid_args_unchanged c10state (some [1, 2]) 2 3
     (Or.inr (Or.inr (by decide)))⟩

/-- C8: folding `v` into a latency statistic: with `count = 0` the
result has `min = max = v` and `sum = v`; otherwise `min` becomes
`min(min, v)`, `max` becomes `max(max, v)` and the sum grows by `v`;
`count` is incremented; and the stored `avg` equals `sum / count`
(the uint64_t division the code performs).  The no-overflow
hypotheses restate that the uint64_t accumulators have not wrapped;
`count = 0 → total = 0` holds for every statistic the program builds,
since statistics start and are reset as all-zero records. -/
theorem process_latency_stat_spec (stat : latency_stat_t) (v : Nat)
    (hv : stat.total + v < U64) (hc : stat.count + 1 < U64)
    (hzero : stat.count = 0 → stat.total = 0) :
    (stat.count = 0 →
      (process_latency_stat stat v).min = v ∧
      (process_latency_stat stat v).max = v ∧
      (process_latency_stat stat v).total = v) ∧
    (stat.count ≠ 0 →
      (process_latency_stat stat v).min = Nat.min stat.min v ∧
      (process_latency_stat stat v).max = Nat.max stat.max v ∧
      (process_latency_stat stat v).total = stat.total + v) ∧
    (process_latency_stat stat v).count = stat.count + 1 ∧
    (process_latency_stat stat v).avg =
      (process_latency_stat stat v).total / (process_latency_stat stat v).count := by
  have htot : (stat.total + v) % U64 = stat.total + v := Nat.mod_eq_of_lt hv
  have hcnt : (stat.count + 1) % U64 = stat.count + 1 := Nat.mod_eq_of_lt hc
  have hrec : process_latency_stat stat v =
      { min := if stat.count = 0 ∨ v < stat.min then v else stat.min,
        max := if stat.count = 0 ∨ stat.max < v then v else stat.max,
        avg := (stat.total + v) / (stat.count + 1),
        total := stat.total + v, count := stat.count + 1 } := by
    simp only [process_latency_stat, u64add, htot, hcnt]
  rw [hrec]
  refine ⟨?_, ?_, rfl, rfl⟩
  · intro h0
    refine ⟨?_, ?_, ?_⟩
    · simp only [if_pos (Or.inl h0)]
    · simp only [if_pos (Or.inl h0)]
    · have := hzero h0
      simp only [this, Nat.zero_add]
  · intro h0
    refine ⟨?_, ?_, rfl⟩
    · rcases Nat.lt_or_ge v stat.min with hlt | hge
      · rw [if_pos (Or.inr hlt)]
        simp only [Nat.min_def]
        split <;> omega
      · have hcond : ¬ (stat.count = 0 ∨ v < stat.min) := by
          simp [h0]
          omega
        rw [if_neg hcond]
        simp only [Nat.min_def]
        split <;> omega
    · rcases Nat.lt_or_ge stat.max v with hlt | hge
      · rw [if_pos (Or.inr hlt)]
        simp only [Nat.max_def]
        split <;> omega
      · have hcond : ¬ (stat.count = 0 ∨ stat.max < v) := by
          simp [h0]
          omega
        rw [if_neg hcond]
        simp only [Nat.max_def]
        split <;> omega

/-- Witness for C8: fold 5 into the zero statistic. -/
theorem process_latency_stat_spec_witness :
    (latency_stat_zero.total + 5 < U64 ∧ latency_stat_zero.count + 1 < U64 ∧
     (latency_stat_zero.count = 0 → latency_stat_zero.total = 0)) ∧
    ((latency_stat_zero.count = 0 →
       (process_latency_stat latency_stat_zero 5).min = 5 ∧
       (process_latency_stat latency_stat_zero 5).max = 5 ∧
       (process_latency_stat latency_stat_zero 5).total = 5) ∧
     (latency_stat_zero.count ≠ 0 →
       (process_latency_stat latency_stat_zero 5).min = Nat.min latency_stat_zero.min 5 ∧
       (process_latency_stat latency_stat_zero 5).max = Nat.max latency_stat_zero.max 5 ∧
       (process_latency_stat latency_stat_zero 5).total = latency_stat_zero.total + 5) ∧
     (process_latency_stat latency_stat_zero 5).count = latency_stat_zero.count + 1 ∧
     (process_latency_stat latency_stat_zero 5).avg =
       (process_latency_stat latency_stat_zero 5).total /
         (process_latency_stat latency_stat_zero 5).count) :=
  ⟨⟨by decide, by decide, fun _ => rfl⟩,
   process_latency_stat_spec latency_stat_zero 5 (by decide) (by decide) (fun _ => rfl)⟩

/-- C5 counterexample: after one `report_xrun` since the zero-initialised
state, the snapshot still reports `xruns = 0`, not 1 - the snapshot
hard-codes `xruns = 0` ("XRUNs tracking not implemented yet"). -/
theorem latency_xruns_counterexample :
    (latency_manager_report_xrun ⟨latency_internal_zero, 0⟩).xrun_count = 1 ∧
    (latency_manger_get_current_metrics
        (latency_manager_report_xrun ⟨latency_internal_zero, 0⟩).internal).xruns = 0 ∧
    (latency_manger_get_current_metrics
        (latency_manager_report_xrun ⟨latency_internal_zero, 0⟩).internal).xruns ≠ 1 := by
  refine ⟨rfl, rfl, ?_⟩
  simp [latency_manger_get_current_metrics]

/-- C5 amended: each `report_xrun` increments the (spec-level) xrun
counter, but the snapshot does not copy it - it always writes
`xruns = 0`, whatever the manager state. -/
theorem latency_snapshot_xruns_always_zero (st : LatencyManagerState) :
    (latency_manger_get_current_metrics st.internal).xruns = 0 ∧
    (latency_manager_report_xrun st).xrun_count = st.xrun_count + 1 :=
  ⟨rfl, rfl⟩

/-- Current configuration used by the C6 counterexample. -/
def c6cfg_old : pwar_config_t :=
  { buffer_size := 1024, ring_buffer_depth := 2048, stream_ip := "192.168.66.3",
    stream_port := 8321, backend_type := 1, passthrough_test := 0, oneshot_mode := 0 }

/-- New configuration differing from `c6cfg_old` only in the ring
depth. -/
def c6cfg_new : pwar_config_t :=
  { buffer_size := 1024, ring_buffer_depth := 4096, stream_ip := "192.168.66.3",
    stream_port := 8321, backend_type := 1, passthrough_test := 0, oneshot_mode := 0 }

/-- Initialised global state holding `c6cfg_old`. -/
def c6globals : PwarGlobals :=
  { g_pwar_initialized := 1, g_current_config := c6cfg_old,
    data_passthrough_test := 0, data_oneshot_mode := 0 }

/-- C6 counterexample: an update whose configuration differs from the
current one only in the ring depth returns 0 (applied in place), not
the distinguished restart code - `pwar_requires_restart` never
compares `ring_buffer_depth`. -/
theorem update_config_ring_depth_counterexample :
    c6cfg_old.ring_buffer_depth ≠ c6cfg_new.ring_buffer_depth ∧
    (pwar_update_config c6globals c6cfg_new).1 = 0 ∧
    (pwar_update_config c6globals c6cfg_new).1 ≠ -2 := by
  refine ⟨by decide, ?_, ?_⟩ <;>
    simp [pwar_update_config, pwar_requires_restart, c6globals, c6cfg_old, c6cfg_new]

/-- C6 amended: on an initialised engine, `pwar_update_config` returns
the distinguished restart code -2 exactly when buffer size, peer ip,
peer port or backend type differ between the current and the new
configuration (ring depth is not compared); otherwise it applies the
runtime-changeable fields in place and returns 0. -/
theorem update_config_restart_fields (g : PwarGlobals) (config : pwar_config_t)
    (hinit : g.g_pwar_initialized ≠ 0) :
    ((pwar_update_config g config).1 = -2 ↔
      (g.g_current_config.buffer_size ≠ config.buffer_size ∨
       g.g_current_config.stream_ip ≠ config.stream_ip ∨
       g.g_current_config.stream_port ≠ config.stream_port ∨
       g.g_current_config.backend_type ≠ config.backend_type)) ∧
    (¬ (g.g_current_config.buffer_size ≠ config.buffer_size ∨
        g.g_current_config.stream_ip ≠ config.stream_ip ∨
        g.g_current_config.stream_port ≠ config.stream_port ∨
        g.g_current_config.backend_type ≠ config.backend_type) →
      pwar_update_config g config =
        (0, { g with data_passthrough_test := config.passthrough_test,
                     data_oneshot_mode := config.oneshot_mode,
                     g_current_config := config })) := by
  unfold pwar_update_config pwar_requires_restart
  rw [if_neg hinit]
  by_cases hr : (g.g_current_config.buffer_size ≠ config.buffer_size ∨
      g.g_current_config.stream_ip ≠ config.stream_ip ∨
      g.g_current_config.stream_port ≠ config.stream_port ∨
      g.g_current_config.backend_type ≠ config.backend_type)
  · simp [hr]
  · simp [hr]

/-- New configuration differing from `c6cfg_old` in the backend type,
used by the C6 witness. -/
def c6cfg_backend : pwar_config_t :=
  { buffer_size := 1024, ring_buffer_depth := 2048, stream_ip := "192.168.66.3",
    stream_port := 8321, backend_type := 2, passthrough_test := 0, oneshot_mode := 0 }

/-- Witness for the amended C6 at a concrete backend-type change. -/
theorem update_config_restart_fields_witness :
    c6globals.g_pwar_initialized ≠ 0 ∧
    (pwar_update_config c6globals c6cfg_backend).1 = -2 :=
  ⟨by decide,
   (update_config_restart_fields c6globals c6cfg_backend (by decide)).1.mpr
     (Or.inr (Or.inr (Or.inr (by decide))))⟩

/-- C4: a datagram is handled as an audio packet exactly when its byte
length equals `sizeof(pwar_packet_t)` and its `n_samples` passes the
parse validation `1 <= n_samples <= 128`; a packet-sized datagram
failing the validation is dropped, and a datagram of any other length
(other than a latency-info datagram) is dropped. -/
theorem receiver_dispatch_spec (latency_info_size : Nat) (d : Datagram) :
    (∀ n, receiver_dispatch latency_info_size d = .audio n ↔
      (d.len = sizeof_pwar_packet ∧ 1 ≤ d.n_samples ∧
       d.n_samples ≤ PWAR_PACKET_MAX_CHUNK_SIZE ∧ n = d.n_samples)) ∧
    (d.len = sizeof_pwar_packet →
      ¬ (1 ≤ d.n_samples ∧ d.n_samples ≤ PWAR_PACKET_MAX_CHUNK_SIZE) →
      receiver_dispatch latency_info_size d = .dropped) ∧
    (d.len ≠ sizeof_pwar_packet → d.len ≠ latency_info_size →
      receiver_dispatch latency_info_size d = .dropped) := by
  unfold receiver_dispatch packet_parse_valid
  refine ⟨?_, ?_, ?_⟩
  · intro n
    by_cases hlen : d.len = sizeof_pwar_packet
    · by_cases hval : 1 ≤ d.n_samples ∧ d.n_samples ≤ PWAR_PACKET_MAX_CHUNK_SIZE
      · simp [hlen, hval.1, hval.2, eq_comm]
      · rw [if_pos hlen, if_neg]
        · simp only [hlen, true_and]
          constructor
          · intro h; exact absurd h (by simp)
          · intro h; exact absurd ⟨h.1, h.2.1⟩ hval
        · simp only [Bool.and_eq_true, decide_eq_true_eq]
          exact fun h => hval ⟨h.1, h.2⟩
    · rw [if_neg hlen]
      by_cases hlat : d.len = latency_info_size
      · rw [if_pos hlat]
        simp [hlen]
      · rw [if_neg hlat]
        simp [hlen]
  · intro hlen hval
    rw [if_pos hlen, if_neg]
    simp only [Bool.and_eq_true, decide_eq_true_eq]
    exact fun h => hval ⟨h.1, h.2⟩
  · intro hlen hlat
    rw [if_neg hlen, if_neg hlat]

/-- Witness for C4: a 500-byte datagram is dropped. -/
theorem receiver_dispatch_spec_witness :
    ((500 : Nat) ≠ sizeof_pwar_packet ∧ (500 : Nat) ≠ 32) ∧
    receiver_dispatch 32 { len := 500, n_samples := 64 } = .dropped :=
  ⟨⟨by decide, by decide⟩,
   (receiver_dispatch_spec 32 { len := 500, n_samples := 64 }).2.2
     (by decide) (by decide)⟩

/- The availability invariant (claim C1). -/

theorem U32_eq : U32 = 4294967296 := by norm_num [U32]

theorem push_step_bounds {α : Type} [Zero α] (s : RingState α)
    (opt : Option (List α)) (n c : Nat) :
    ((pwar_ring_buffer_push s opt n c).2).depth = s.depth ∧
    ((pwar_ring_buffer_push s opt n c).2).channels = s.channels ∧
    (s.depth < U32 → n < U32 → s.available ≤ s.depth →
      ((pwar_ring_buffer_push s opt n c).2).available ≤ s.depth) := by
  cases hb : s.buffer with
  | none => cases opt <;> simp [pwar_ring_buffer_push, hb]
  | some buf =>
    cases opt with
    | none => simp [pwar_ring_buffer_push, hb]
    | some srcL =>
      by_cases hch : c ≠ s.channels
      · simp [pwar_ring_buffer_push, hb, hch]
      · by_cases hov : u32sub s.depth s.available < n
        · simp only [pwar_ring_buffer_push, hb, if_neg hch, if_pos hov]
          refine ⟨trivial, trivial, fun h32 hn ha => ?_⟩
          revert hov
          unfold u32add u32sub
          rw [U32_eq] at h32 hn ⊢
          intro hov
          omega
        · simp only [pwar_ring_buffer_push, hb, if_neg hch, if_neg hov]
          refine ⟨trivial, trivial, fun h32 hn ha => ?_⟩
          revert hov
          unfold u32add u32sub
          rw [U32_eq] at h32 hn ⊢
          intro hov
          omega

theorem pop_step_bounds {α : Type} [Zero α] (s : RingState α)
    (opt : Option (List α)) (n c : Nat) :
    ((pwar_ring_buffer_pop s opt n c).2.2).depth = s.depth ∧
    ((pwar_ring_buffer_pop s opt n c).2.2).channels = s.channels ∧
    (s.depth < U32 → n < U32 → s.available ≤ s.depth →
      ((pwar_ring_buffer_pop s opt n c).2.2).available ≤ s.depth) := by
  cases hb : s.buffer with
  | none => cases opt <;> simp [pwar_ring_buffer_pop, hb]
  | some buf =>
    cases opt with
    | none => simp [pwar_ring_buffer_pop, hb]
    | some dstL =>
      by_cases hch : c ≠ s.channels
      · simp [pwar_ring_buffer_pop, hb, hch]
      · by_cases hun : s.available < n
        · simp only [pwar_ring_buffer_pop, hb, if_neg hch, if_pos hun,
            prefill_buffer]
          exact ⟨trivial, trivial, fun _ _ _ => le_refl _⟩
        · simp only [pwar_ring_buffer_pop, hb, if_neg hch, if_neg hun]
          refine ⟨trivial, trivial, fun h32 hn ha => ?_⟩
          revert hun
          unfold u32sub
          rw [U32_eq] at h32 hn ⊢
          intro hun
          omega

theorem ringStep_bounds {α : Type} [Zero α] (s : RingState α) (op : RingOp α) :
    (ringStep s op).depth = s.depth ∧
    (ringStep s op).channels = s.channels ∧
    (s.depth < U32 → opFrames op < U32 → s.available ≤ s.depth →
      (ringStep s op).available ≤ s.depth) := by
  cases op with
  | push src n => exact push_step_bounds s (some src) n s.channels
  | pop n =>
    exact pop_step_bounds s (some (List.replicate (n * s.channels) (0 : α))) n s.channels

theorem ringStates_inv {α : Type} [Zero α] :
    ∀ (ops : List (RingOp α)) (s : RingState α),
      s.depth < U32 → s.available ≤ s.depth →
      (∀ op ∈ ops, opFrames op < U32) →
      ∀ s2 ∈ ringStates s ops, s2.depth = s.depth ∧ s2.available ≤ s2.depth := by
  intro ops
  induction ops with
  | nil => intro s _ _ _ s2 h; simp [ringStates] at h
  | cons op rest ih =>
    intro s h32 ha hops s2 hmem
    obtain ⟨hdep, _, hav⟩ := ringStep_bounds s op
    have hstep : (ringStep s op).available ≤ (ringStep s op).depth := by
      rw [hdep]
      exact hav h32 (hops op (by simp)) ha
    rcases (by simpa [ringStates] using hmem :
        s2 = ringStep s op ∨ s2 ∈ ringStates (ringStep s op) rest) with h | h
    · subst h
      exact ⟨hdep, hstep⟩
    · have := ih (ringStep s op) (by rw [hdep]; exact h32) hstep
        (fun o ho => hops o (by simp [ho])) s2 h
      exact ⟨by rw [this.1, hdep], this.2⟩

theorem init_fields (α : Type) [Zero α] (depth channels : Nat) :
    (pwar_ring_buffer_init α depth channels).depth = depth ∧
    (pwar_ring_buffer_init α depth channels).available = depth ∧
    (pwar_ring_buffer_init α depth channels).channels = channels := by
  simp [pwar_ring_buffer_init, prefill_buffer]

/-- C1: along any interleaved sequence of pushes and pops on an
initialised ring buffer (each operation using the channel count given
at init, each frame count a uint32_t value), the readable-sample
counter satisfies `0 <= available <= depth` after every operation -
also after a push whose frame count exceeds `depth`, which the witness
exercises. -/
theorem ring_available_bounded {α : Type} [Zero α] (depth channels : Nat)
    (ops : List (RingOp α)) (_hd : 0 < depth) (hd32 : depth < U32)
    (hops : ∀ op ∈ ops, opFrames op < U32) :
    ∀ s2 ∈ ringStates (pwar_ring_buffer_init α depth channels) ops,
      0 ≤ pwar_ring_buffer_get_available s2 ∧
      pwar_ring_buffer_get_available s2 ≤ s2.depth ∧ s2.depth = depth := by
  obtain ⟨h1, h2, _⟩ := init_fields α depth channels
  intro s2 hmem
  have := ringStates_inv ops (pwar_ring_buffer_init α depth channels)
    (by rw [h1]; exact hd32) (by rw [h1, h2]) hops s2 hmem
  exact ⟨Nat.zero_le _, this.2, by rw [this.1, h1]⟩

/-- Operation list used by the C1 witness: the first push exceeds the
depth (4). -/
def c1ops : List (RingOp Int) :=
  [RingOp.push [1, 2, 3, 4, 5, 6] 6, RingOp.pop 3, RingOp.pop 20,
   RingOp.push [7, 8] 2]

/-- Witness for C1 on a concrete trace with an over-depth push, an
ordinary pop and an underrunning pop. -/
theorem ring_available_bounded_witness :
    (0 < 4 ∧ 4 < U32 ∧ ∀ op ∈ c1ops, opFrames op < U32) ∧
    (∀ s2 ∈ ringStates (pwar_ring_buffer_init Int 4 1) c1ops,
      0 ≤ pwar_ring_buffer_get_available s2 ∧
      pwar_ring_buffer_get_available s2 ≤ s2.depth ∧ s2.depth = 4) :=
  ⟨⟨by decide, by decide, by decide⟩,
   ring_available_bounded 4 1 c1ops (by decide) (by decide) (by decide)⟩

/- Data placement of the push copy loop (claim C2). -/

theorem cell_lt (f ch c d : Nat) (hf : f < d) (hch : ch < c) :
    f * c + ch < d * c := by
  have h1 : (f + 1) * c ≤ d * c := Nat.mul_le_mul_right c hf
  rw [add_mul, one_mul] at h1
  omega

theorem frame_cells_disjoint (f w ch c : Nat) (hch : ch < c) (hfw : f ≠ w) :
    ¬ (w * c ≤ f * c + ch ∧ f * c + ch < w * c + c) := by
  rcases Nat.lt_or_ge f w with h | h
  · have h1 : (f + 1) * c ≤ w * c := Nat.mul_le_mul_right c h
    rw [add_mul, one_mul] at h1
    omega
  · have hgt : w < f := by omega
    have h1 : (w + 1) * c ≤ f * c := Nat.mul_le_mul_right c hgt
    rw [add_mul, one_mul] at h1
    omega

theorem add_mod_ne_self (w t d : Nat) (hw : w < d) (ht1 : 0 < t) (ht2 : t < d) :
    (w + t) % d ≠ w := by
  intro h
  have hmod : w ≡ w + t [MOD d] := by
    unfold Nat.ModEq
    rw [h, Nat.mod_eq_of_lt hw]
  have hdvd : d ∣ (w + t - w) := (Nat.modEq_iff_dvd' (by omega)).mp hmod
  have : d ∣ t := by simpa using hdvd
  have := Nat.le_of_dvd ht1 this
  omega

theorem copyFrameToBuf_length {α : Type} [Zero α] (buf src : List α)
    (wpos spos c : Nat) :
    (copyFrameToBuf buf wpos src spos c).length = buf.length := by
  induction c with
  | zero => rfl
  | succ c ih => simp [copyFrameToBuf, ih]

theorem copyFrameToBuf_getD {α : Type} [Zero α] (buf src : List α)
    (wpos spos c j : Nat) (hj : j < buf.length) :
    (copyFrameToBuf buf wpos src spos c).getD j 0 =
      if wpos ≤ j ∧ j < wpos + c then src.getD (spos + (j - wpos)) 0
      else buf.getD j 0 := by
  induction c with
  | zero =>
    rw [if_neg (by omega)]
    rfl
  | succ c ih =>
    by_cases hje : j = wpos + c
    · simp only [copyFrameToBuf]
      subst hje
      rw [getD_set_self _ _ _ _ (by rw [copyFrameToBuf_length]; omega)]
      rw [if_pos (by omega)]
      congr 1
      omega
    · simp only [copyFrameToBuf]
      rw [getD_set_ne _ _ _ _ _ (fun hc => hje hc.symm), ih]
      by_cases h1 : wpos ≤ j ∧ j < wpos + c
      · rw [if_pos h1, if_pos (by omega)]
      · rw [if_neg h1, if_neg (by omega)]

theorem pushFrames_length {α : Type} [Zero α] (src : List α) (c d : Nat) :
    ∀ (k i : Nat) (buf : List α) (w : Nat),
      (pushFrames src c d i k buf w).1.length = buf.length := by
  intro k
  induction k with
  | zero => intro i buf w; rfl
  | succ k ih =>
    intro i buf w
    rw [pushFrames, ih, copyFrameToBuf_length]

theorem pushFrames_snd {α : Type} [Zero α] (src : List α) (c d : Nat) (hd : 0 < d) :
    ∀ (k i : Nat) (buf : List α) (w : Nat), w < d →
      (pushFrames src c d i k buf w).2 = (w + k) % d := by
  intro k
  induction k with
  | zero => intro i buf w hw; simp [pushFrames, Nat.mod_eq_of_lt hw]
  | succ k ih =>
    intro i buf w hw
    rw [pushFrames, ih _ _ _ (Nat.mod_lt _ hd), Nat.mod_add_mod]
    congr 1
    omega

theorem readFrame_congr {α : Type} [Zero α] (buf1 buf2 : List α) (c f : Nat)
    (h : ∀ ch, ch < c → buf1.getD (f * c + ch) 0 = buf2.getD (f * c + ch) 0) :
    readFrame buf1 c f = readFrame buf2 c f := by
  unfold readFrame
  apply List.map_congr_left
  intro ch hch
  exact h ch (List.mem_range.mp hch)

theorem pushFrames_frame_untouched {α : Type} [Zero α] (src : List α)
    (c d : Nat) (hd : 0 < d) :
    ∀ (m i0 : Nat) (buf : List α) (w f : Nat),
      buf.length = d * c → w < d → f < d →
      (∀ t, t < m → (w + t) % d ≠ f) →
      readFrame (pushFrames src c d i0 m buf w).1 c f = readFrame buf c f := by
  intro m
  induction m with
  | zero => intro i0 buf w f _ _ _ _; rfl
  | succ m ih =>
    intro i0 buf w f hlen hw hf hnt
    have hwf : f ≠ w := by
      have h0 := hnt 0 (by omega)
      rw [Nat.add_zero, Nat.mod_eq_of_lt hw] at h0
      exact fun hc => h0 hc.symm
    simp only [pushFrames]
    rw [ih (i0 + 1) _ ((w + 1) % d) f
      (by rw [copyFrameToBuf_length]; exact hlen) (Nat.mod_lt _ hd) hf ?side]
    case side =>
      intro t ht
      rw [Nat.mod_add_mod]
      have heq : w + 1 + t = w + (t + 1) := by omega
      rw [heq]
      exact hnt (t + 1) (by omega)
    apply readFrame_congr
    intro ch hch
    rw [copyFrameToBuf_getD _ _ _ _ _ _ (by rw [hlen]; exact cell_lt f ch c d hf hch)]
    rw [if_neg (frame_cells_disjoint f w ch c hch hwf)]

theorem pushFrames_frame_last {α : Type} [Zero α] (src : List α)
    (c d : Nat) (hd : 0 < d) :
    ∀ (m i0 : Nat) (buf : List α) (w t : Nat),
      buf.length = d * c → w < d → t < m → m ≤ t + d →
      readFrame (pushFrames src c d i0 m buf w).1 c ((w + t) % d) =
        readFrame src c (i0 + t) := by
  intro m
  induction m with
  | zero => intro i0 buf w t _ _ ht _; omega
  | succ m ih =>
    intro i0 buf w t hlen hw ht hm
    by_cases ht0 : t = 0
    · subst ht0
      simp only [Nat.add_zero]
      rw [Nat.mod_eq_of_lt hw]
      simp only [pushFrames]
      rw [pushFrames_frame_untouched src c d hd m (i0 + 1) _ ((w + 1) % d) w
        (by rw [copyFrameToBuf_length]; exact hlen) (Nat.mod_lt _ hd) hw ?side]
      case side =>
        intro t2 ht2
        rw [Nat.mod_add_mod]
        have heq : w + 1 + t2 = w + (t2 + 1) := by omega
        rw [heq]
        exact add_mod_ne_self w (t2 + 1) d hw (by omega) (by omega)
      unfold readFrame
      apply List.map_congr_left
      intro ch hmem
      have hch := List.mem_range.mp hmem
      rw [copyFrameToBuf_getD _ _ _ _ _ _ (by rw [hlen]; exact cell_lt w ch c d hw hch)]
      rw [if_pos (by omega)]
      congr 1
      omega
    · obtain ⟨t2, rfl⟩ : ∃ t2, t = t2 + 1 := ⟨t - 1, by omega⟩
      simp only [pushFrames]
      have hidx : (w + (t2 + 1)) % d = ((w + 1) % d + t2) % d := by
        rw [Nat.mod_add_mod]
        congr 1
        omega
      rw [hidx, ih (i0 + 1) (copyFrameToBuf buf (w * c) src (i0 * c) c)
        ((w + 1) % d) t2
        (by rw [copyFrameToBuf_length]; exact hlen) (Nat.mod_lt _ hd)
        (by omega) (by omega)]
      congr 1
      omega

/-- C2: a push of `n` frames with `n + available > depth` succeeds,
increments the overrun counter (as the uint32_t it is), advances the
read cursor by `n - (depth - available)` (discarding that many oldest
frames), leaves `available = depth`, and afterwards the readable
contents, read in order from the read cursor, are exactly the last
`depth` frames of `previous_contents ++ X`.  The state hypotheses
(`available <= depth`, cursors in range, `W = (R + A) % depth`) hold in
every reachable state of the buffer; `n + depth <= 2^32` keeps the
uint32_t cursor arithmetic below the wrap. -/
theorem ring_push_overrun_spec {α : Type} [Zero α] (s : RingState α)
    (buf srcL : List α) (n c : Nat)
    (hbuf : s.buffer = some buf) (hlen : buf.length = s.depth * s.channels)
    (hch : c = s.channels) (_hsrcL : srcL.length = n * s.channels)
    (hd : 0 < s.depth) (h32 : n + s.depth ≤ U32)
    (hA : s.available ≤ s.depth) (hR : s.read_index < s.depth)
    (hW : s.write_index = (s.read_index + s.available) % s.depth)
    (hover : s.depth < s.available + n) :
    (pwar_ring_buffer_push s (some srcL) n c).1 = 1 ∧
    pwar_ring_buffer_get_overruns (pwar_ring_buffer_push s (some srcL) n c).2 =
      (s.overruns + 1) % U32 ∧
    (pwar_ring_buffer_push s (some srcL) n c).2.read_index =
      (s.read_index + (n - (s.depth - s.available))) % s.depth ∧
    pwar_ring_buffer_get_available (pwar_ring_buffer_push s (some srcL) n c).2 = s.depth ∧
    ringContents (pwar_ring_buffer_push s (some srcL) n c).2 =
      (ringContents s ++ srcFrames srcL s.channels n).drop (s.available + n - s.depth) := by
  have hU : U32 = 4294967296 := U32_eq
  have hn1 : 1 ≤ n := by omega
  have hchne : ¬ c ≠ s.channels := by simp [hch]
  have hfree : u32sub s.depth s.available = s.depth - s.available := by
    unfold u32sub
    rw [hU] at h32 ⊢
    omega
  have hov : u32sub s.depth s.available < n := by
    rw [hfree]
    omega
  have hskip : n - u32sub s.depth s.available = s.available + n - s.depth := by
    rw [hfree]
    omega
  have hAvail : u32add (u32sub s.available (n - u32sub s.depth s.available)) n
      = s.depth := by
    rw [hskip]
    unfold u32add u32sub
    rw [hU] at h32 ⊢
    omega
  have hRead : u32add s.read_index (n - u32sub s.depth s.available) % s.depth =
      (s.read_index + (s.available + n - s.depth)) % s.depth := by
    rw [hskip]
    unfold u32add
    rw [hU] at h32 ⊢
    have hlt : s.read_index + (s.available + n - s.depth) < 4294967296 := by omega
    rw [Nat.mod_eq_of_lt hlt]
  have hskip2 : n - (s.depth - s.available) = s.available + n - s.depth := by omega
  have hWlt : s.write_index < s.depth := by
    rw [hW]
    exact Nat.mod_lt _ hd
  simp only [pwar_ring_buffer_push, hbuf, if_neg hchne, if_pos hov]
  refine ⟨trivial, rfl, ?_, ?_, ?_⟩
  · show u32add s.read_index (n - u32sub s.depth s.available) % s.depth = _
    rw [hRead, hskip2]
  · show u32add (u32sub s.available (n - u32sub s.depth s.available)) n = s.depth
    exact hAvail
  · show ringContents _ = _
    simp only [ringContents, hbuf, hAvail, hRead, srcFrames]
    apply List.ext_getElem
    · simp only [List.length_map, List.length_range, List.length_drop,
        List.length_append]
      omega
    · intro k h1 h2
      have hk : k < s.depth := by
        simpa using h1
      rw [List.getElem_map, List.getElem_range, List.getElem_drop]
      have hidxL : ((s.read_index + (s.available + n - s.depth)) % s.depth + k)
          % s.depth =
          (s.read_index + ((s.available + n - s.depth) + k)) % s.depth := by
        rw [Nat.mod_add_mod]
        congr 1
        omega
      rw [hidxL]
      have hlenA : (List.map
          (fun k => readFrame buf s.channels ((s.read_index + k) % s.depth))
          (List.range s.available)).length = s.available := by
        simp
      by_cases hq : s.available + n - s.depth + k < s.available
      · rw [List.getElem_append_left (by rw [hlenA]; omega)]
        rw [List.getElem_map, List.getElem_range]
        apply pushFrames_frame_untouched srcL s.channels s.depth hd n 0 buf
          s.write_index _ hlen hWlt (Nat.mod_lt _ hd)
        intro t ht hEq
        rw [hW, Nat.mod_add_mod] at hEq
        have h1' : s.read_index + (s.available + n - s.depth + k) ≤
            s.read_index + s.available + t := by omega
        have hmq : s.read_index + (s.available + n - s.depth + k) ≡
            s.read_index + s.available + t [MOD s.depth] := by
          unfold Nat.ModEq
          rw [hEq]
        have hdvd := (Nat.modEq_iff_dvd' h1').mp hmq
        have heq2 : s.read_index + s.available + t -
            (s.read_index + (s.available + n - s.depth + k)) =
            s.available + t - (s.available + n - s.depth + k) := by omega
        rw [heq2] at hdvd
        have hpos : 0 < s.available + t - (s.available + n - s.depth + k) := by
          omega
        have hle := Nat.le_of_dvd hpos hdvd
        omega
      · rw [List.getElem_append_right (by rw [hlenA]; omega)]
        rw [List.getElem_map, List.getElem_range, hlenA]
        have hidx2 : (s.read_index + (s.available + n - s.depth + k)) % s.depth =
            (s.write_index + (s.available + n - s.depth + k - s.available))
              % s.depth := by
          rw [hW, Nat.mod_add_mod]
          congr 1
          omega
        rw [hidx2]
        rw [pushFrames_frame_last srcL s.channels s.depth hd n 0 buf
          s.write_index _ hlen hWlt (by omega) (by omega)]
        congr 1
        omega

/-- Concrete state used by the C2 witness: depth 3, 2 channels, one
frame already consumed, so a push of 2 frames overruns by 1. -/
def c2state : RingState Int :=
  { buffer := some [1, 2, 3, 4, 5, 6], depth := 3, channels := 2,
    write_index := 0, read_index := 1, available := 2,
    overruns := 4, underruns := 0 }

/-- Witness for C2 at a concrete overrunning push. -/
theorem ring_push_overrun_spec_witness :
    (c2state.buffer = some [1, 2, 3, 4, 5, 6] ∧
     ([1, 2, 3, 4, 5, 6] : List Int).length = c2state.depth * c2state.channels ∧
     2 = c2state.channels ∧
     ([10, 11, 12, 13] : List Int).length = 2 * c2state.channels ∧
     0 < c2state.depth ∧ 2 + c2state.depth ≤ U32 ∧
     c2state.available ≤ c2state.depth ∧ c2state.read_index < c2state.depth ∧
     c2state.write_index = (c2state.read_index + c2state.available) % c2state.depth ∧
     c2state.depth < c2state.available + 2) ∧
    ((pwar_ring_buffer_push c2state (some [10, 11, 12, 13]) 2 2).1 = 1 ∧
     pwar_ring_buffer_get_overruns
       (pwar_ring_buffer_push c2state (some [10, 11, 12, 13]) 2 2).2 =
       (c2state.overruns + 1) % U32 ∧
     (pwar_ring_buffer_push c2state (some [10, 11, 12, 13]) 2 2).2.read_index =
       (c2state.read_index + (2 - (c2state.depth - c2state.available)))
         % c2state.depth ∧
     pwar_ring_buffer_get_available
       (pwar_ring_buffer_push c2state (some [10, 11, 12, 13]) 2 2).2 =
       c2state.depth ∧
     ringContents (pwar_ring_buffer_push c2state (some [10, 11, 12, 13]) 2 2).2 =
       (ringContents c2state ++ srcFrames [10, 11, 12, 13] c2state.channels 2).drop
         (c2state.available + 2 - c2state.depth)) :=
  ⟨⟨rfl, rfl, rfl, rfl, by decide, by decide, by decide, by decide, by decide,
    by decide⟩,
   ring_push_overrun_spec c2state [1, 2, 3, 4, 5, 6] [10, 11, 12, 13] 2 2
     rfl rfl rfl rfl (by decide) (by decide) (by decide) (by decide)
     (by decide) (by decide)⟩

end PWAR
